import Mathlib

/-!
Verification of the `smooth` Lie-theory / nonlinear-least-squares library.

This file gives a shallow embedding, over exact arithmetic (`ℚ` for the
compile-time polynomial matrices, `ℝ` for trigonometric and linear-algebra
code), of the parts of the library needed to settle the specification claims:

* the Taylor-tail primitives `cos_2`, `sin_3`, `cos_4`, `sin_5`, `cos_6`;
* the compile-time polynomial matrices `monomial_integral`, `bspline_basis`
  and the spline module's duplicate `bspline_coefmat`;
* the cumulative-spline evaluator `cspline_eval` and its size guards;
* the `SO3` group (unit quaternions with non-negative scalar part), its
  public constructors, exponential/logarithm, adjoint and the manifold
  retraction/difference pair;
* the trust-region damping search `lmpar` of the nonlinear solver.

Components whose implementation files are not part of the source snapshot
(`nls.hpp`, `detail/so3.hpp`, the manifold plus/minus operators and the
constant `eps2`) are modelled from the specification; each such definition
carries a doc comment starting with `Modelled from the spec:`.
-/

namespace Smooth

/-! ## Taylor-tail primitives (src/unnamed/part_001, second file) -/

/-- Modelled from the spec: the squared-magnitude branch threshold `eps2`
(declared in `common.hpp`, which is not part of the source snapshot); the
spec gives its value as approximately `1e-8`. -/
noncomputable def eps2 : ℝ := 1e-8

/-- Embedding of `detail::cos_2`: evaluates `(cos x - 1) / x²` given the
squared argument `x2`, switching to a truncated Taylor series when
`x2 ≤ eps2`. -/
noncomputable def cos_2 (x2 : ℝ) : ℝ :=
  if x2 > eps2 then (Real.cos (Real.sqrt x2) - 1) / x2
  else -1 / 2 + x2 / 24 - x2 * x2 / 720

/-- Embedding of `detail::sin_3`: evaluates `(sin x - x) / x³` given the
squared argument `x2`. -/
noncomputable def sin_3 (x2 : ℝ) : ℝ :=
  if x2 > eps2 then (Real.sin (Real.sqrt x2) - Real.sqrt x2) / (x2 * Real.sqrt x2)
  else -1 / 6 + x2 / 120 - x2 * x2 / 5040

/-- Embedding of `detail::cos_4`: evaluates `(cos x - 1 + x²/2) / x⁴`. -/
noncomputable def cos_4 (x2 : ℝ) : ℝ :=
  if x2 > eps2 then (Real.cos (Real.sqrt x2) - 1 + x2 / 2) / (x2 * x2)
  else 1 / 24 - x2 / 720 + x2 * x2 / 40320

/-- Embedding of `detail::sin_5`: evaluates `(sin x - x + x³/6) / x⁵`. -/
noncomputable def sin_5 (x2 : ℝ) : ℝ :=
  if x2 > eps2 then
    (Real.sin (Real.sqrt x2) - Real.sqrt x2 + x2 * Real.sqrt x2 / 6) /
      (x2 * x2 * Real.sqrt x2)
  else 1 / 120 - x2 / 5040 + x2 * x2 / 362880

/-- Embedding of `detail::cos_6`: evaluates `(cos x - 1 + x²/2 - x⁴/24) / x⁶`. -/
noncomputable def cos_6 (x2 : ℝ) : ℝ :=
  if x2 > eps2 then
    (Real.cos (Real.sqrt x2) - 1 + x2 / 2 - x2 * x2 / 24) / (x2 * x2 * x2)
  else -1 / 720 + x2 / 40320 - x2 * x2 / 3628800

/-! ## Compile-time polynomial matrices (src/unnamed/part_000)

Matrices are represented as total functions `ℕ → ℕ → ℚ`; entries outside the
declared size are `0`, matching the zero-initialised `StaticMatrix`. -/

/-- Embedding of `detail::bspline_basis` (polynomial module).  Degree `K`
gives a `(K+1) × (K+1)` matrix; the recursive step computes
`low * left + high * right` as in the source, where `low`/`high` embed the
degree-`K-1` matrix shifted by zero/one row and `left`/`right` are the
bidiagonal blending matrices. -/
def bspline_basis : ℕ → ℕ → ℕ → ℚ
  | 0, i, j => if i = 0 ∧ j = 0 then 1 else 0
  | K + 1, i, j =>
    ∑ k ∈ Finset.range (K + 1),
      ((if i ≤ K then bspline_basis K i k else 0) *
          (if j = k + 1 then ((K - k : ℕ) : ℚ) / (K + 1)
           else if j = k then 1 - ((K - k : ℕ) : ℚ) / (K + 1) else 0) +
        (if 1 ≤ i ∧ i ≤ K + 1 then bspline_basis K (i - 1) k else 0) *
          (if j = k + 1 then (1 : ℚ) / (K + 1)
           else if j = k then -((1 : ℚ) / (K + 1)) else 0))

/-- Embedding of `detail::bspline_coefmat` (spline-interpolation module,
src/unnamed/part_002); the body is the same recursion as `bspline_basis`,
duplicated in the source with the template parameters in the other order. -/
def bspline_coefmat : ℕ → ℕ → ℕ → ℚ
  | 0, i, j => if i = 0 ∧ j = 0 then 1 else 0
  | K + 1, i, j =>
    ∑ k ∈ Finset.range (K + 1),
      ((if i ≤ K then bspline_coefmat K i k else 0) *
          (if j = k + 1 then ((K - k : ℕ) : ℚ) / (K + 1)
           else if j = k then 1 - ((K - k : ℕ) : ℚ) / (K + 1) else 0) +
        (if 1 ≤ i ∧ i ≤ K + 1 then bspline_coefmat K (i - 1) k else 0) *
          (if j = k + 1 then (1 : ℚ) / (K + 1)
           else if j = k then -((1 : ℚ) / (K + 1)) else 0))

/-- Pointwise update of a matrix represented as a total function, used to
embed the assignments of the `monomial_integral` double loop. -/
def mset (m : ℕ → ℕ → ℚ) (i j : ℕ) (v : ℚ) : ℕ → ℕ → ℚ :=
  fun a b => if a = i ∧ b = j then v else m a b

/-- Value assigned to entry `(i, j)` of `monomial_integral`: the inner-loop
product `c = ∏ i-P+1..i · ∏ j-P+1..j` divided by `i + j - 2P + 1` when
`i ≥ P ∧ j ≥ P`, and `0` otherwise. -/
def monomial_integral_val (P i j : ℕ) : ℚ :=
  if P ≤ i ∧ P ≤ j then
    ((((List.range' (i - P + 1) P).prod * (List.range' (j - P + 1) P).prod : ℕ) : ℚ)) /
      ((i + j - 2 * P + 1 : ℕ) : ℚ)
  else 0

/-- Embedding of `monomial_integral<K, P>()`: the double loop
`for i ≤ K, for j in i..K` performs `ret[i][j] = v; ret[j][i] = ret[i][j]`,
starting from the zero matrix.  The second assignment reads the value the
first one just wrote. -/
def monomial_integral (K P : ℕ) : ℕ → ℕ → ℚ :=
  (List.range (K + 1)).foldl
    (fun m i =>
      (List.range' i (K + 1 - i)).foldl
        (fun m' j =>
          let m1 := mset m' i j (monomial_integral_val P i j)
          mset m1 j i (m1 i j))
        m)
    (fun _ _ => 0)

/-! ## Theorems: Taylor tails (claim C4) -/

/-- Claim C4: each Taylor-tail primitive selects between the closed-form
ratio and the truncated Taylor series solely by comparing the squared
argument `x2` against the fixed threshold `eps2`: for `x2 > eps2` it returns
the closed-form expression in `√x2`, otherwise the truncated series in `x2`.
The selection never inspects the sign of the unsquared argument (the
functions receive only `x2`). -/
theorem taylor_tails_branch_by_squared_magnitude (x2 : ℝ) (hx2 : 0 ≤ x2) :
    (x2 > eps2 → cos_2 x2 = (Real.cos (Real.sqrt x2) - 1) / x2 ∧
        sin_3 x2 = (Real.sin (Real.sqrt x2) - Real.sqrt x2) / (x2 * Real.sqrt x2) ∧
        cos_4 x2 = (Real.cos (Real.sqrt x2) - 1 + x2 / 2) / (x2 * x2) ∧
        sin_5 x2 = (Real.sin (Real.sqrt x2) - Real.sqrt x2 + x2 * Real.sqrt x2 / 6) /
          (x2 * x2 * Real.sqrt x2) ∧
        cos_6 x2 = (Real.cos (Real.sqrt x2) - 1 + x2 / 2 - x2 * x2 / 24) / (x2 * x2 * x2)) ∧
    (x2 ≤ eps2 → cos_2 x2 = -1 / 2 + x2 / 24 - x2 * x2 / 720 ∧
        sin_3 x2 = -1 / 6 + x2 / 120 - x2 * x2 / 5040 ∧
        cos_4 x2 = 1 / 24 - x2 / 720 + x2 * x2 / 40320 ∧
        sin_5 x2 = 1 / 120 - x2 / 5040 + x2 * x2 / 362880 ∧
        cos_6 x2 = -1 / 720 + x2 / 40320 - x2 * x2 / 3628800) := by
  constructor
  · intro h
    refine ⟨?_, ?_, ?_, ?_, ?_⟩ <;>
      simp [cos_2, sin_3, cos_4, sin_5, cos_6, if_pos h]
  · intro h
    have h' : ¬ x2 > eps2 := not_lt.mpr h
    refine ⟨?_, ?_, ?_, ?_, ?_⟩ <;>
      simp [cos_2, sin_3, cos_4, sin_5, cos_6, if_neg h']

/-- Witness for claim C4 at the concrete squared argument `x2 = 0`. -/
theorem taylor_tails_branch_witness :
    (0 : ℝ) ≤ 0 ∧
      ((0 : ℝ) > eps2 → cos_2 0 = (Real.cos (Real.sqrt 0) - 1) / 0 ∧
          sin_3 0 = (Real.sin (Real.sqrt 0) - Real.sqrt 0) / (0 * Real.sqrt 0) ∧
          cos_4 0 = (Real.cos (Real.sqrt 0) - 1 + 0 / 2) / (0 * 0) ∧
          sin_5 0 = (Real.sin (Real.sqrt 0) - Real.sqrt 0 + 0 * Real.sqrt 0 / 6) /
            (0 * 0 * Real.sqrt 0) ∧
          cos_6 0 = (Real.cos (Real.sqrt 0) - 1 + 0 / 2 - 0 * 0 / 24) / (0 * 0 * 0)) ∧
      ((0 : ℝ) ≤ eps2 → cos_2 0 = -1 / 2 + 0 / 24 - 0 * 0 / 720 ∧
          sin_3 0 = -1 / 6 + 0 / 120 - 0 * 0 / 5040 ∧
          cos_4 0 = 1 / 24 - 0 / 720 + 0 * 0 / 40320 ∧
          sin_5 0 = 1 / 120 - 0 / 5040 + 0 * 0 / 362880 ∧
          cos_6 0 = -1 / 720 + 0 / 40320 - 0 * 0 / 3628800) :=
  ⟨le_refl 0, taylor_tails_branch_by_squared_magnitude 0 (le_refl 0)⟩

/-! ## Theorems: duplicated B-spline coefficient recursions (claim C10) -/

/-- Claim C10: the polynomial module's `detail::bspline_basis<K>()` and the
spline-interpolation module's `detail::bspline_coefmat<Scalar, K>()` compute
element-wise equal matrices for every degree `K`: the two duplicated
recursions define the same function. -/
theorem bspline_basis_eq_bspline_coefmat (K i j : ℕ) :
    bspline_basis K i j = bspline_coefmat K i j := by
  induction K generalizing i j with
  | zero => rfl
  | succ K ih =>
    simp only [bspline_basis, bspline_coefmat, ih]

/-! ## Theorems: monomial_integral structure (claim C9) -/

/-- Folding a step function that preserves a predicate preserves it over a
whole list. -/
theorem foldl_preserves {α β : Type} (p : α → Prop) (f : α → β → α)
    (hf : ∀ a b, p a → p (f a b)) :
    ∀ (l : List β) (a : α), p a → p (l.foldl f a) := by
  intro l
  induction l with
  | nil => intro a ha; exact ha
  | cons x xs ih => intro a ha; exact ih (f a x) (hf a x ha)

/-- The inner-loop value vanishes as soon as one index is below the
differentiation order `P`. -/
theorem monomial_integral_val_eq_zero (P i j : ℕ) (h : i < P ∨ j < P) :
    monomial_integral_val P i j = 0 := by
  unfold monomial_integral_val
  rw [if_neg]
  omega

/-- Reading back the entry just written by `mset`. -/
theorem mset_self (m : ℕ → ℕ → ℚ) (i j : ℕ) (v : ℚ) : mset m i j v i j = v := by
  simp [mset]

/-- The paired writes `ret[i][j] = v; ret[j][i] = v` of the
`monomial_integral` loop body preserve symmetry of the matrix. -/
theorem mset_pair_symm (m : ℕ → ℕ → ℚ) (i j : ℕ) (v : ℚ)
    (hm : ∀ a b, m a b = m b a) (a b : ℕ) :
    mset (mset m i j v) j i v a b = mset (mset m i j v) j i v b a := by
  simp only [mset]
  split_ifs <;> first | rfl | exact hm a b | omega

/-- The paired writes preserve the property that all entries with an index
below `P` are zero, because the written value itself vanishes there. -/
theorem mset_pair_zero (m : ℕ → ℕ → ℚ) (i j : ℕ) (P : ℕ)
    (hm : ∀ a b, a < P ∨ b < P → m a b = 0) (a b : ℕ) (hab : a < P ∨ b < P) :
    mset (mset m i j (monomial_integral_val P i j)) j i (monomial_integral_val P i j) a b
      = 0 := by
  simp only [mset]
  by_cases h1 : a = j ∧ b = i
  · rw [if_pos h1]
    exact monomial_integral_val_eq_zero P i j (by omega)
  · rw [if_neg h1]
    by_cases h2 : a = i ∧ b = j
    · rw [if_pos h2]
      exact monomial_integral_val_eq_zero P i j (by omega)
    · rw [if_neg h2]
      exact hm a b hab

/-- Any pointwise matrix property preserved by every loop body holds for the
matrix computed by `monomial_integral`. -/
theorem monomial_integral_invariant (K P : ℕ) (p : (ℕ → ℕ → ℚ) → Prop)
    (hzero : p (fun _ _ => 0))
    (hstep : ∀ (m : ℕ → ℕ → ℚ) (i j : ℕ), p m →
      p (mset (mset m i j (monomial_integral_val P i j)) j i
          (monomial_integral_val P i j))) :
    p (monomial_integral K P) := by
  unfold monomial_integral
  refine foldl_preserves p _ ?_ _ _ hzero
  intro m i hm
  refine foldl_preserves p _ ?_ _ _ hm
  intro m' j hm'
  have hv : mset m' i j (monomial_integral_val P i j) i j = monomial_integral_val P i j :=
    mset_self m' i j _
  simpa [hv] using hstep m' i j hm'

/-- Claim C9: for every maximal degree `K` and differentiation order `P`,
the matrix returned by `monomial_integral<K, P>()` is symmetric — entry
`(i, j)` equals entry `(j, i)` — and entry `(i, j)` is zero whenever
`i < P` or `j < P`. -/
theorem monomial_integral_symm_and_lower_zero (K P i j : ℕ)
    (hi : i ≤ K) (hj : j ≤ K) :
    monomial_integral K P i j = monomial_integral K P j i ∧
      (i < P ∨ j < P → monomial_integral K P i j = 0) := by
  constructor
  · have h := monomial_integral_invariant K P (fun m => ∀ a b, m a b = m b a)
      (fun _ _ => rfl) (fun m a b hm x y => mset_pair_symm m a b _ hm x y)
    exact h i j
  · intro hij
    have h := monomial_integral_invariant K P
      (fun m => ∀ a b, a < P ∨ b < P → m a b = 0)
      (fun _ _ _ => rfl) (fun m a b hm x y hxy => mset_pair_zero m a b P hm x y hxy)
    exact h i j hij

/-- Witness for claim C9 at `K = 3`, `P = 2`, entry `(1, 2)`. -/
theorem monomial_integral_symm_witness :
    1 ≤ 3 ∧ 2 ≤ 3 ∧
      (monomial_integral 3 2 1 2 = monomial_integral 3 2 2 1 ∧
        (1 < 2 ∨ 2 < 2 → monomial_integral 3 2 1 2 = 0)) :=
  ⟨by decide, by decide, monomial_integral_symm_and_lower_zero 3 2 1 2 (by decide) (by decide)⟩

/-! ## Cumulative-spline evaluation (src/unnamed/part_002, `cspline_eval`)

The evaluator is generic over a Lie group `G`; the group operations it uses
through `lie_traits<G>::Impl` are collected in a record.  Tangent vectors are
an arbitrary real module `T`; the `Dof × Dof` matrices appearing in the
source (`Ad`, `ad`, `dr_exp`, `dr_expinv`) are modelled as linear actions
`T → T`.  Fallible code returns `Except`: the size guards of the two
overloads throw `std::runtime_error` at the call boundary. -/

/-- Record of the Lie-group operations consumed by `cspline_eval`.
The `sub` field is the manifold difference `*b2 - *b1` used by the
control-points overload.  Modelled from the spec: the implementations behind
these operations (`lie_group_base.hpp` and the per-group `Impl` types) are
not part of the source snapshot; `cspline_eval` only invokes them
abstractly, which is what the record captures. -/
structure LieImpl (R T : Type) where
  exp : T → R
  composition : R → R → R
  inverse : R → R
  identity : R
  Ad : R → T → T
  ad : T → T → T
  dr_exp : T → T → T
  dr_expinv : T → T → T
  sub : R → R → T

/-- Result of a successful `cspline_eval` call: the group value and the
optional outputs, present exactly when they were requested. -/
structure SplineOut (R T : Type) where
  g : R
  vel : Option T
  acc : Option T
  der : Option (ℕ → T → T)

/-- Embedding of the `diff_points` overload of `cspline_eval`.  The size
guard is the first statement of the body; the remainder embeds the
monomial-vector setup, the left-to-right accumulation loop for the value,
velocity and acceleration, and the right-to-left loop for the control-point
derivatives.  Velocity and acceleration are computed functionally and
exposed only when the corresponding output was requested, matching the
conditional writes of the source. -/
def cspline_eval_diff {R T : Type} [AddCommGroup T] [Module ℝ T]
    (impl : LieImpl R T) (K : ℕ) (g_0 : R) (diff_points : List T)
    (cum_coef_mat : ℕ → ℕ → ℝ) (u : ℝ) (wantVel wantAcc wantDer : Bool) :
    Except String (SplineOut R T) :=
  if diff_points.length ≠ K then
    Except.error ("cspline_eval: diff_points range must be size K=" ++ toString K
      ++ ", got " ++ toString diff_points.length)
  else
    let uvec : ℕ → ℝ := fun k => u ^ k
    let duvec : ℕ → ℝ := fun k => (k : ℝ) * u ^ (k - 1)
    let d2uvec : ℕ → ℝ := fun k => (k : ℝ) * ((k : ℝ) - 1) * u ^ (k - 2)
    let Btilde : ℕ → ℝ := fun j => ∑ k ∈ Finset.range (K + 1), uvec k * cum_coef_mat j k
    let dBtilde : ℕ → ℝ := fun j => ∑ k ∈ Finset.range (K + 1), duvec k * cum_coef_mat j k
    let d2Btilde : ℕ → ℝ := fun j => ∑ k ∈ Finset.range (K + 1), d2uvec k * cum_coef_mat j k
    let step : R × T × T → ℕ × T → R × T × T := fun s jv =>
      let j := jv.1
      let v := jv.2
      let e := impl.exp (Btilde j • v)
      let g' := impl.composition s.1 e
      let A := impl.Ad (impl.inverse e)
      let vel' := A s.2.1 + dBtilde j • v
      let acc' := A s.2.2 + dBtilde j • impl.ad vel' v + d2Btilde j • v
      (g', vel', acc')
    let main := (diff_points.enum.map (fun p => (p.1 + 1, p.2))).foldl step (g_0, 0, 0)
    let derState : R × (ℕ → T → T) :=
      ((List.range (K + 1)).reverse).foldl
        (fun s j =>
          let s1 : R × (ℕ → T → T) :=
            if j ≠ K then
              let vjp := diff_points.getD j 0
              let sjp := Btilde (j + 1) • vjp
              let der' : ℕ → T → T := fun b =>
                if b = j then
                  fun t => s.2 b t -
                    Btilde (j + 1) •
                      impl.Ad s.1 (impl.dr_exp sjp (-impl.ad vjp t + impl.dr_expinv vjp t))
                else s.2 b
              (impl.composition s.1 (impl.exp (-sjp)), der')
            else s
          if j ≠ 0 then
            let vj := diff_points.getD (j - 1) 0
            (s1.1, fun b =>
              if b = j then
                fun t => s1.2 b t +
                  Btilde j • impl.Ad s1.1 (impl.dr_exp (Btilde j • vj) (impl.dr_expinv vj t))
              else s1.2 b)
          else
            (s1.1, fun b =>
              if b = j then fun t => s1.2 b t + Btilde j • impl.Ad s1.1 t else s1.2 b))
        (impl.identity, fun _ _ => 0)
    Except.ok
      { g := main.1
        vel := if wantVel then some main.2.1 else none
        acc := if wantAcc then some main.2.2 else none
        der := if wantDer then some derState.2 else none }

/-- Embedding of the `ctrl_points` overload of `cspline_eval`: after its own
size guard it forms the `K` consecutive differences of the `K + 1` control
points and delegates to the `diff_points` overload. -/
def cspline_eval_ctrl {R T : Type} [AddCommGroup T] [Module ℝ T]
    (impl : LieImpl R T) (K : ℕ) (ctrl_points : List R)
    (cum_coef_mat : ℕ → ℕ → ℝ) (u : ℝ) (wantVel wantAcc wantDer : Bool) :
    Except String (SplineOut R T) :=
  if ctrl_points.length ≠ K + 1 then
    Except.error ("cspline_eval: ctrl_points range must be size K+1=" ++ toString (K + 1)
      ++ ", got " ++ toString ctrl_points.length)
  else
    let diff_pts := (List.range K).map fun i =>
      impl.sub (ctrl_points.getD (i + 1) impl.identity) (ctrl_points.getD i impl.identity)
    cspline_eval_diff impl K (ctrl_points.getD 0 impl.identity) diff_pts cum_coef_mat u
      wantVel wantAcc wantDer

/-! ## Theorems: cspline_eval size guards (claim C8) -/

/-- Claim C8: when `cspline_eval` is called with a `diff_points` range whose
size differs from `K`, or a `ctrl_points` range whose size differs from
`K + 1`, it reports the size error immediately at the call boundary: the
result is exactly the boundary error value, so no group value is returned
and none of the optional outputs (`vel`, `acc`, `der`) is produced. -/
theorem cspline_eval_size_guard {R T : Type} [AddCommGroup T] [Module ℝ T]
    (impl : LieImpl R T) (K : ℕ) (g_0 : R) (diff_points : List T)
    (ctrl_points : List R) (cum_coef_mat : ℕ → ℕ → ℝ) (u : ℝ)
    (wantVel wantAcc wantDer : Bool)
    (hd : diff_points.length ≠ K) (hc : ctrl_points.length ≠ K + 1) :
    cspline_eval_diff impl K g_0 diff_points cum_coef_mat u wantVel wantAcc wantDer =
        Except.error ("cspline_eval: diff_points range must be size K=" ++ toString K
          ++ ", got " ++ toString diff_points.length) ∧
      cspline_eval_ctrl impl K ctrl_points cum_coef_mat u wantVel wantAcc wantDer =
        Except.error ("cspline_eval: ctrl_points range must be size K+1=" ++ toString (K + 1)
          ++ ", got " ++ toString ctrl_points.length) := by
  constructor
  · unfold cspline_eval_diff
    rw [if_pos hd]
  · unfold cspline_eval_ctrl
    rw [if_pos hc]

/-- Lie-operation record on `ℝ` (as both group representation and tangent)
used to instantiate the size-guard theorem on concrete inputs. -/
def realLieImpl : LieImpl ℝ ℝ where
  exp := fun t => t
  composition := fun a b => a + b
  inverse := fun a => -a
  identity := 0
  Ad := fun _ t => t
  ad := fun _ _ => 0
  dr_exp := fun _ t => t
  dr_expinv := fun _ t => t
  sub := fun a b => a - b

/-- Witness for claim C8: empty ranges passed where `K = 1` expects sizes
`1` and `2`. -/
theorem cspline_eval_size_guard_witness :
    ([] : List ℝ).length ≠ 1 ∧ ([] : List ℝ).length ≠ 1 + 1 ∧
      (cspline_eval_diff realLieImpl 1 0 [] (fun _ _ => 0) 0 true true true =
          Except.error ("cspline_eval: diff_points range must be size K=" ++ toString 1
            ++ ", got " ++ toString ([] : List ℝ).length) ∧
        cspline_eval_ctrl realLieImpl 1 [] (fun _ _ => 0) 0 true true true =
          Except.error ("cspline_eval: ctrl_points range must be size K+1=" ++ toString (1 + 1)
            ++ ", got " ++ toString ([] : List ℝ).length)) :=
  ⟨by decide, by decide,
    cspline_eval_size_guard realLieImpl 1 0 [] [] (fun _ _ => 0) 0 true true true
      (by decide) (by decide)⟩

/-! ## SO3: unit quaternions (src/include/smooth/so3.hpp and the modelled
`detail/so3.hpp` implementation)

Group elements are stored as coefficient vectors `[x, y, z, w]` (Eigen
quaternion layout); the group constraint is `x² + y² + z² + w² = 1` with
`w ≥ 0`.  Tangent vectors are `ℝ³`. -/

/-- Quaternion coefficients `[x, y, z, w]` of an SO3 element (the
`RepSize = 4` coefficient storage). -/
@[ext]
structure Quat where
  x : ℝ
  y : ℝ
  z : ℝ
  w : ℝ

/-- Tangent vector of SO3 (`Dof = 3`). -/
@[ext]
structure V3 where
  x : ℝ
  y : ℝ
  z : ℝ

/-- Squared norm of the four quaternion coefficients. -/
def qnormSq (q : Quat) : ℝ := q.x ^ 2 + q.y ^ 2 + q.z ^ 2 + q.w ^ 2

/-- Norm of the four quaternion coefficients. -/
noncomputable def qnorm (q : Quat) : ℝ := Real.sqrt (qnormSq q)

/-- Coefficient-wise negation (the `coeffs *= -1` sign fix). -/
def qneg (q : Quat) : Quat := ⟨-q.x, -q.y, -q.z, -q.w⟩

/-- Quaternion (Hamilton) product, the group composition of SO3. -/
def qmul (a b : Quat) : Quat :=
  ⟨a.w * b.x + a.x * b.w + a.y * b.z - a.z * b.y,
    a.w * b.y - a.x * b.z + a.y * b.w + a.z * b.x,
    a.w * b.z + a.x * b.y - a.y * b.x + a.z * b.w,
    a.w * b.w - a.x * b.x - a.y * b.y - a.z * b.z⟩

/-- Quaternion conjugate; for unit quaternions this is the group inverse. -/
def qconj (q : Quat) : Quat := ⟨-q.x, -q.y, -q.z, q.w⟩

/-- Identity quaternion. -/
def qone : Quat := ⟨0, 0, 0, 1⟩

/-- Euclidean norm of a tangent vector. -/
noncomputable def norm3 (v : V3) : ℝ := Real.sqrt (v.x ^ 2 + v.y ^ 2 + v.z ^ 2)

/-- Sign-fixing step shared by the SO3 constructors:
`if (coeffs(3) < 0) coeffs *= -1`. -/
noncomputable def flipIfNeg (q : Quat) : Quat := if q.w < 0 then qneg q else q

/-- Embedding of the `SO3(const Eigen::QuaternionBase &)` constructor:
normalize the input quaternion, then fix the sign of the scalar part. -/
noncomputable def SO3_from_quat (q : Quat) : Quat :=
  flipIfNeg ⟨q.x / qnorm q, q.y / qnorm q, q.z / qnorm q, q.w / qnorm q⟩

/-- Embedding of `SO3::rot_x`. -/
noncomputable def rot_x (angle : ℝ) : Quat :=
  flipIfNeg ⟨Real.sin (angle / 2), 0, 0, Real.cos (angle / 2)⟩

/-- Embedding of `SO3::rot_y`. -/
noncomputable def rot_y (angle : ℝ) : Quat :=
  flipIfNeg ⟨0, Real.sin (angle / 2), 0, Real.cos (angle / 2)⟩

/-- Embedding of `SO3::rot_z`. -/
noncomputable def rot_z (angle : ℝ) : Quat :=
  flipIfNeg ⟨0, 0, Real.sin (angle / 2), Real.cos (angle / 2)⟩

namespace SO3Impl

/-- Modelled from the spec: the exponential map of `SO3Impl`
(`detail/so3.hpp` is not part of the source snapshot): the canonical unit
quaternion `(sin(θ/2)/θ · v, cos(θ/2))` with `θ = ‖v‖`. -/
noncomputable def exp (v : V3) : Quat :=
  if norm3 v = 0 then qone
  else
    ⟨Real.sin (norm3 v / 2) / norm3 v * v.x,
      Real.sin (norm3 v / 2) / norm3 v * v.y,
      Real.sin (norm3 v / 2) / norm3 v * v.z,
      Real.cos (norm3 v / 2)⟩

/-- Half rotation angle recovered from the vector-part norm `s ≥ 0` and the
scalar part `w` of a quaternion; this is `atan2 s w`, which for `s ≥ 0` takes
values in `[0, π]`. -/
noncomputable def halfAngle (s w : ℝ) : ℝ :=
  if 0 < w then Real.arctan (s / w)
  else if w < 0 then Real.arctan (s / w) + Real.pi
  else Real.pi / 2

/-- Modelled from the spec: the logarithm of `SO3Impl`: the rotation angle
`θ = 2 · atan2(‖v‖, w)` of the canonical chart (angle in `(-π, π]` for
canonical representatives), scaled onto the unit vector part. -/
noncomputable def log (q : Quat) : V3 :=
  if norm3 ⟨q.x, q.y, q.z⟩ = 0 then ⟨0, 0, 0⟩
  else
    ⟨2 * halfAngle (norm3 ⟨q.x, q.y, q.z⟩) q.w / norm3 ⟨q.x, q.y, q.z⟩ * q.x,
      2 * halfAngle (norm3 ⟨q.x, q.y, q.z⟩) q.w / norm3 ⟨q.x, q.y, q.z⟩ * q.y,
      2 * halfAngle (norm3 ⟨q.x, q.y, q.z⟩) q.w / norm3 ⟨q.x, q.y, q.z⟩ * q.z⟩

/-- Group composition of SO3 (quaternion product). -/
def composition (a b : Quat) : Quat := qmul a b

/-- Modelled from the spec: the group inverse of a unit quaternion is its
conjugate. -/
def inverse (q : Quat) : Quat := qconj q

/-- Modelled from the spec: the adjoint `Ad(g)` of SO3 is the `3 × 3`
rotation matrix of the quaternion, here in the homogeneous quadratic form
applied to a tangent vector. -/
def Ad (q : Quat) (v : V3) : V3 :=
  ⟨(q.w ^ 2 + q.x ^ 2 - q.y ^ 2 - q.z ^ 2) * v.x + 2 * (q.x * q.y - q.w * q.z) * v.y +
      2 * (q.x * q.z + q.w * q.y) * v.z,
    2 * (q.x * q.y + q.w * q.z) * v.x + (q.w ^ 2 - q.x ^ 2 + q.y ^ 2 - q.z ^ 2) * v.y +
      2 * (q.y * q.z - q.w * q.x) * v.z,
    2 * (q.x * q.z - q.w * q.y) * v.x + 2 * (q.y * q.z + q.w * q.x) * v.y +
      (q.w ^ 2 - q.x ^ 2 - q.y ^ 2 + q.z ^ 2) * v.z⟩

end SO3Impl

/-- Manifold retraction for SO3 (`rplus`): `g ⊕ v = g · exp(v)`.
Modelled from the spec: retraction is the manifold's local chart. -/
noncomputable def rplus (g : Quat) (v : V3) : Quat := qmul g (SO3Impl.exp v)

/-- Manifold difference for SO3 (`rminus`): `g2 ⊖ g1 = log(g1⁻¹ · g2)`.
Modelled from the spec. -/
noncomputable def rminus (g2 g1 : Quat) : V3 := SO3Impl.log (qmul (SO3Impl.inverse g1) g2)

/-- Euclidean retraction: vector addition. -/
def retrE {n : ℕ} (p v : Fin n → ℝ) : Fin n → ℝ := p + v

/-- Euclidean difference: vector subtraction. -/
def diffE {n : ℕ} (q p : Fin n → ℝ) : Fin n → ℝ := q - p

/-- Componentwise retraction on the composite manifold `SO3 × ℝⁿ`. -/
noncomputable def retrP {n : ℕ} (a : Quat × (Fin n → ℝ)) (t : V3 × (Fin n → ℝ)) :
    Quat × (Fin n → ℝ) := (rplus a.1 t.1, retrE a.2 t.2)

/-- Componentwise difference on the composite manifold `SO3 × ℝⁿ`. -/
noncomputable def diffP {n : ℕ} (b a : Quat × (Fin n → ℝ)) : V3 × (Fin n → ℝ) :=
  (rminus b.1 a.1, diffE b.2 a.2)

/-! ## Theorems: SO3 constructor invariant (claim C7) -/

/-- The squared coefficient norm is non-negative. -/
theorem qnormSq_nonneg (q : Quat) : 0 ≤ qnormSq q := by
  unfold qnormSq; positivity

/-- Coefficient negation preserves the squared norm. -/
theorem qnormSq_qneg (q : Quat) : qnormSq (qneg q) = qnormSq q := by
  unfold qnormSq qneg; ring

/-- The shared sign-fixing step turns any unit-norm coefficient vector into
a canonical one: unit norm and non-negative scalar part. -/
theorem flipIfNeg_canonical (q : Quat) (h : qnormSq q = 1) :
    qnorm (flipIfNeg q) = 1 ∧ 0 ≤ (flipIfNeg q).w := by
  unfold flipIfNeg
  by_cases hw : q.w < 0
  · rw [if_pos hw]
    refine ⟨?_, ?_⟩
    · unfold qnorm
      rw [qnormSq_qneg, h, Real.sqrt_one]
    · show 0 ≤ -q.w
      linarith
  · rw [if_neg hw]
    exact ⟨by unfold qnorm; rw [h, Real.sqrt_one], le_of_not_lt hw⟩

/-- Claim C7: every SO3 element produced by the public constructors — the
quaternion constructor on any nonzero quaternion, and `rot_x`/`rot_y`/
`rot_z` at any angle — satisfies the group's embedding constraint: unit
coefficient norm and non-negative scalar (w) coefficient. -/
theorem so3_constructors_satisfy_group_constraint (q : Quat) (hq : qnormSq q ≠ 0) (a : ℝ) :
    (qnorm (SO3_from_quat q) = 1 ∧ 0 ≤ (SO3_from_quat q).w) ∧
      (qnorm (rot_x a) = 1 ∧ 0 ≤ (rot_x a).w) ∧
      (qnorm (rot_y a) = 1 ∧ 0 ≤ (rot_y a).w) ∧
      (qnorm (rot_z a) = 1 ∧ 0 ≤ (rot_z a).w) := by
  have hpos : 0 < qnormSq q := lt_of_le_of_ne (qnormSq_nonneg q) (Ne.symm hq)
  have hsq : qnorm q ^ 2 = qnormSq q := Real.sq_sqrt (qnormSq_nonneg q)
  have hn0 : qnorm q ≠ 0 := ne_of_gt (Real.sqrt_pos.mpr hpos)
  have hsc : Real.sin (a / 2) ^ 2 + Real.cos (a / 2) ^ 2 = 1 := Real.sin_sq_add_cos_sq (a / 2)
  refine ⟨?_, ?_, ?_, ?_⟩
  · refine flipIfNeg_canonical _ ?_
    show (q.x / qnorm q) ^ 2 + (q.y / qnorm q) ^ 2 + (q.z / qnorm q) ^ 2 +
        (q.w / qnorm q) ^ 2 = 1
    have hq4 : q.x ^ 2 + q.y ^ 2 + q.z ^ 2 + q.w ^ 2 = qnorm q ^ 2 := by
      rw [hsq]; rfl
    field_simp
    linarith [hq4]
  · exact flipIfNeg_canonical _ (by unfold qnormSq; linear_combination hsc)
  · exact flipIfNeg_canonical _ (by unfold qnormSq; linear_combination hsc)
  · exact flipIfNeg_canonical _ (by unfold qnormSq; linear_combination hsc)

/-- Witness for claim C7 at the unit quaternion and angle `0`. -/
theorem so3_constructors_witness :
    qnormSq ⟨0, 0, 0, 1⟩ ≠ 0 ∧
      ((qnorm (SO3_from_quat ⟨0, 0, 0, 1⟩) = 1 ∧ 0 ≤ (SO3_from_quat ⟨0, 0, 0, 1⟩).w) ∧
        (qnorm (rot_x 0) = 1 ∧ 0 ≤ (rot_x 0).w) ∧
        (qnorm (rot_y 0) = 1 ∧ 0 ≤ (rot_y 0).w) ∧
        (qnorm (rot_z 0) = 1 ∧ 0 ≤ (rot_z 0).w)) :=
  ⟨by norm_num [qnormSq],
    so3_constructors_satisfy_group_constraint ⟨0, 0, 0, 1⟩ (by norm_num [qnormSq]) 0⟩

/-! ## Theorems: SO3 exponential/logarithm round trips (claim C3) -/

/-- The tangent norm is non-negative. -/
theorem norm3_nonneg (v : V3) : 0 ≤ norm3 v := Real.sqrt_nonneg _

/-- A tangent vector has zero norm exactly when all components vanish. -/
theorem norm3_eq_zero_iff (v : V3) : norm3 v = 0 ↔ v.x = 0 ∧ v.y = 0 ∧ v.z = 0 := by
  unfold norm3
  rw [Real.sqrt_eq_zero' ]
  constructor
  · intro h
    have h0 : v.x ^ 2 + v.y ^ 2 + v.z ^ 2 = 0 := le_antisymm h (by positivity)
    refine ⟨?_, ?_, ?_⟩ <;>
      [skip; skip; skip] <;>
      first
        | exact pow_eq_zero_iff two_ne_zero |>.mp (by nlinarith [sq_nonneg v.x, sq_nonneg v.y, sq_nonneg v.z])
  · rintro ⟨hx, hy, hz⟩
    rw [hx, hy, hz]
    norm_num

/-- Squared tangent norm. -/
theorem norm3_sq (v : V3) : norm3 v ^ 2 = v.x ^ 2 + v.y ^ 2 + v.z ^ 2 :=
  Real.sq_sqrt (by positivity)

/-- Norm of a componentwise-scaled vector. -/
theorem norm3_scale (c x y z : ℝ) :
    norm3 ⟨c * x, c * y, c * z⟩ = |c| * norm3 ⟨x, y, z⟩ := by
  unfold norm3
  rw [show (c * x) ^ 2 + (c * y) ^ 2 + (c * z) ^ 2 = c ^ 2 * (x ^ 2 + y ^ 2 + z ^ 2) by ring,
    Real.sqrt_mul (sq_nonneg c), Real.sqrt_sq_eq_abs]

/-- On the unit circle with positive vector part, `halfAngle` recovers the
point: its sine is `s` and its cosine is `w`. -/
theorem sin_cos_halfAngle (s w : ℝ) (hs : 0 < s) (h1 : s ^ 2 + w ^ 2 = 1) :
    Real.sin (SO3Impl.halfAngle s w) = s ∧ Real.cos (SO3Impl.halfAngle s w) = w := by
  unfold SO3Impl.halfAngle
  by_cases hw : 0 < w
  · rw [if_pos hw]
    have hwne : w ≠ 0 := ne_of_gt hw
    have hsq : Real.sqrt (1 + (s / w) ^ 2) = 1 / w := by
      have h2 : 1 + (s / w) ^ 2 = (1 / w) ^ 2 := by
        field_simp
        linear_combination h1
      rw [h2, Real.sqrt_sq (by positivity)]
    constructor
    · rw [Real.sin_arctan, hsq]
      field_simp
    · rw [Real.cos_arctan, hsq]
      field_simp
  · rw [if_neg hw]
    by_cases hw2 : w < 0
    · rw [if_pos hw2]
      have hwne : w ≠ 0 := ne_of_lt hw2
      have hwd : 1 / w < 0 := one_div_neg.mpr hw2
      have hsq : Real.sqrt (1 + (s / w) ^ 2) = -(1 / w) := by
        have h2 : 1 + (s / w) ^ 2 = (-(1 / w)) ^ 2 := by
          field_simp
          linear_combination h1
        rw [h2, Real.sqrt_sq (by linarith)]
      constructor
      · rw [Real.sin_add_pi, Real.sin_arctan, hsq]
        field_simp
      · rw [Real.cos_add_pi, Real.cos_arctan, hsq]
        field_simp
    · rw [if_neg hw2]
      have hw0 : w = 0 := le_antisymm (not_lt.mp hw) (not_lt.mp hw2)
      have hs1 : s = 1 := by
        have h2 : (s - 1) * (s + 1) = 0 := by
          rw [hw0] at h1
          linear_combination h1
        rcases mul_eq_zero.mp h2 with h | h
        · linarith
        · linarith
      exact ⟨by rw [Real.sin_pi_div_two, hs1], by rw [Real.cos_pi_div_two, hw0]⟩

/-- For positive vector part, `halfAngle` lies in `(0, π]`. -/
theorem halfAngle_pos_le_pi (s w : ℝ) (hs : 0 < s) :
    0 < SO3Impl.halfAngle s w ∧ SO3Impl.halfAngle s w ≤ Real.pi := by
  have hpi := Real.pi_pos
  unfold SO3Impl.halfAngle
  by_cases hw : 0 < w
  · rw [if_pos hw]
    have h0 : Real.arctan 0 < Real.arctan (s / w) := Real.arctan_strictMono (by positivity)
    rw [Real.arctan_zero] at h0
    exact ⟨h0, le_of_lt (lt_of_lt_of_le (Real.arctan_lt_pi_div_two _) (by linarith))⟩
  · rw [if_neg hw]
    by_cases hw2 : w < 0
    · rw [if_pos hw2]
      have hlo := Real.neg_pi_div_two_lt_arctan (s / w)
      have hhi : Real.arctan (s / w) < Real.arctan 0 :=
        Real.arctan_strictMono (div_neg_of_pos_of_neg hs hw2)
      rw [Real.arctan_zero] at hhi
      exact ⟨by linarith, by linarith⟩
    · rw [if_neg hw2]
      exact ⟨by linarith, by linarith⟩

/-- Exponential inverts the logarithm on every unit quaternion except the
antipode `(0,0,0,-1)` of the identity. -/
theorem so3_exp_log (q : Quat) (hq : qnormSq q = 1)
    (hne : q ≠ ⟨0, 0, 0, -1⟩) : SO3Impl.exp (SO3Impl.log q) = q := by
  by_cases hs : norm3 ⟨q.x, q.y, q.z⟩ = 0
  · obtain ⟨hx0, hy0, hz0⟩ := (norm3_eq_zero_iff _).mp hs
    have hx : q.x = 0 := hx0
    have hy : q.y = 0 := hy0
    have hz : q.z = 0 := hz0
    have hw2 : q.w ^ 2 = 1 := by
      unfold qnormSq at hq
      rw [hx, hy, hz] at hq
      linarith [hq]
    have hw : q.w = 1 := by
      have h2 : (q.w - 1) * (q.w + 1) = 0 := by linear_combination hw2
      rcases mul_eq_zero.mp h2 with h | h
      · linarith
      · exfalso
        exact hne (by ext <;> simp [hx, hy, hz] <;> linarith)
    rw [SO3Impl.log, if_pos hs, SO3Impl.exp,
      if_pos (by rw [norm3_eq_zero_iff]; norm_num)]
    unfold qone
    ext <;> simp [hx, hy, hz, hw]
  · have hspos : 0 < norm3 ⟨q.x, q.y, q.z⟩ :=
      lt_of_le_of_ne (norm3_nonneg _) (Ne.symm hs)
    have hs2 : norm3 ⟨q.x, q.y, q.z⟩ ^ 2 + q.w ^ 2 = 1 := by
      rw [norm3_sq]
      unfold qnormSq at hq
      linarith [hq]
    obtain ⟨hsin, hcos⟩ := sin_cos_halfAngle _ q.w hspos hs2
    obtain ⟨hA_pos, hA_le⟩ := halfAngle_pos_le_pi (norm3 ⟨q.x, q.y, q.z⟩) q.w hspos
    rw [SO3Impl.log, if_neg hs]
    have hnrm :
        norm3 ⟨2 * SO3Impl.halfAngle (norm3 ⟨q.x, q.y, q.z⟩) q.w / norm3 ⟨q.x, q.y, q.z⟩ * q.x,
            2 * SO3Impl.halfAngle (norm3 ⟨q.x, q.y, q.z⟩) q.w / norm3 ⟨q.x, q.y, q.z⟩ * q.y,
            2 * SO3Impl.halfAngle (norm3 ⟨q.x, q.y, q.z⟩) q.w / norm3 ⟨q.x, q.y, q.z⟩ * q.z⟩ =
          2 * SO3Impl.halfAngle (norm3 ⟨q.x, q.y, q.z⟩) q.w := by
      rw [norm3_scale]
      rw [abs_of_pos (by positivity)]
      field_simp
    rw [SO3Impl.exp, if_neg (by rw [hnrm]; positivity), hnrm]
    have h2 : 2 * SO3Impl.halfAngle (norm3 ⟨q.x, q.y, q.z⟩) q.w / 2 =
        SO3Impl.halfAngle (norm3 ⟨q.x, q.y, q.z⟩) q.w := by ring
    ext <;> simp only [h2, hsin, hcos] <;> field_simp <;> ring

/-- Logarithm inverts the exponential for tangent vectors of norm at most
`π` (the canonical coverage region). -/
theorem so3_log_exp (v : V3) (hv : norm3 v ≤ Real.pi) :
    SO3Impl.log (SO3Impl.exp v) = v := by
  have hpi := Real.pi_pos
  by_cases hz : norm3 v = 0
  · obtain ⟨hx0, hy0, hz0⟩ := (norm3_eq_zero_iff _).mp hz
    rw [SO3Impl.exp, if_pos hz, SO3Impl.log]
    rw [if_pos (by unfold qone; rw [norm3_eq_zero_iff]; norm_num)]
    ext <;> simp [hx0, hy0, hz0]
  · have hθpos : 0 < norm3 v := lt_of_le_of_ne (norm3_nonneg _) (Ne.symm hz)
    have hhalf_pos : 0 < norm3 v / 2 := by linarith
    have hhalf_le : norm3 v / 2 ≤ Real.pi / 2 := by linarith
    have hsin_pos : 0 < Real.sin (norm3 v / 2) :=
      Real.sin_pos_of_pos_of_lt_pi hhalf_pos (by linarith)
    rw [SO3Impl.exp, if_neg hz]
    have hvec :
        norm3 ⟨Real.sin (norm3 v / 2) / norm3 v * v.x,
            Real.sin (norm3 v / 2) / norm3 v * v.y,
            Real.sin (norm3 v / 2) / norm3 v * v.z⟩ = Real.sin (norm3 v / 2) := by
      have hv3 : norm3 ⟨v.x, v.y, v.z⟩ = norm3 v := rfl
      rw [norm3_scale, hv3, abs_of_pos (by positivity)]
      field_simp
    rw [SO3Impl.log]
    rw [if_neg (by rw [hvec]; exact ne_of_gt hsin_pos), hvec]
    have hha : SO3Impl.halfAngle (Real.sin (norm3 v / 2)) (Real.cos (norm3 v / 2)) =
        norm3 v / 2 := by
      unfold SO3Impl.halfAngle
      by_cases hc : 0 < Real.cos (norm3 v / 2)
      · have hlt : norm3 v / 2 < Real.pi / 2 := by
          rcases lt_or_eq_of_le hhalf_le with h | h
          · exact h
          · exfalso
            rw [h, Real.cos_pi_div_two] at hc
            exact lt_irrefl 0 hc
        rw [if_pos hc, ← Real.tan_eq_sin_div_cos,
          Real.arctan_tan (by linarith) hlt]
      · have hcnn : 0 ≤ Real.cos (norm3 v / 2) :=
          Real.cos_nonneg_of_mem_Icc ⟨by linarith, hhalf_le⟩
        have hc0 : Real.cos (norm3 v / 2) = 0 := le_antisymm (not_lt.mp hc) hcnn
        rw [if_neg hc, if_neg (by rw [hc0]; exact lt_irrefl 0)]
        have hnl : ¬ norm3 v / 2 < Real.pi / 2 := by
          intro h
          have := Real.cos_pos_of_mem_Ioo (Set.mem_Ioo.mpr ⟨by linarith, h⟩)
          rw [hc0] at this
          exact lt_irrefl 0 this
        have : norm3 v / 2 = Real.pi / 2 := le_antisymm hhalf_le (not_lt.mp hnl)
        rw [this]
    rw [hha]
    ext <;> field_simp <;> ring

/-- Claim C3: for every SO3 group element `g` (unit quaternion with
canonical non-negative scalar part), `exp(log(g)) = g`; and for every
tangent vector `v` with norm in the canonical coverage region
(`‖v‖ ≤ π`, angle in `(-π, π]`), `log(exp(v)) = v` — in particular for
every `v` with `‖v‖ < π`. -/
theorem so3_exp_log_roundtrip (q : Quat) (v : V3) (hq : qnormSq q = 1)
    (hw : 0 ≤ q.w) (hv : norm3 v ≤ Real.pi) :
    SO3Impl.exp (SO3Impl.log q) = q ∧ SO3Impl.log (SO3Impl.exp v) = v := by
  refine ⟨so3_exp_log q hq ?_, so3_log_exp v hv⟩
  intro h
  rw [h] at hw
  norm_num at hw

/-- Witness for claim C3 at the identity quaternion and the zero tangent. -/
theorem so3_exp_log_roundtrip_witness :
    qnormSq ⟨0, 0, 0, 1⟩ = 1 ∧ 0 ≤ (Quat.mk 0 0 0 1).w ∧ norm3 ⟨0, 0, 0⟩ ≤ Real.pi ∧
      (SO3Impl.exp (SO3Impl.log ⟨0, 0, 0, 1⟩) = ⟨0, 0, 0, 1⟩ ∧
        SO3Impl.log (SO3Impl.exp ⟨0, 0, 0⟩) = ⟨0, 0, 0⟩) := by
  refine ⟨by norm_num [qnormSq], by norm_num, by simp [norm3, Real.pi_nonneg], ?_⟩
  exact so3_exp_log_roundtrip ⟨0, 0, 0, 1⟩ ⟨0, 0, 0⟩ (by norm_num [qnormSq]) (by norm_num)
    (by simp [norm3, Real.pi_nonneg])

/-! ## Theorems: adjoint conjugation identity (claim C5) -/

/-- Quaternion sandwich identity: conjugating any quaternion `p` by `q`
rotates the vector part by the (homogeneous) adjoint matrix and scales the
scalar part by `‖q‖²`.  This is an exact polynomial identity. -/
theorem qmul_sandwich (q p : Quat) :
    qmul (qmul q p) (qconj q) =
      ⟨(SO3Impl.Ad q ⟨p.x, p.y, p.z⟩).x, (SO3Impl.Ad q ⟨p.x, p.y, p.z⟩).y,
        (SO3Impl.Ad q ⟨p.x, p.y, p.z⟩).z, qnormSq q * p.w⟩ := by
  unfold qmul qconj SO3Impl.Ad qnormSq
  ext <;> dsimp only <;> ring

/-- The adjoint of a unit quaternion preserves the tangent norm. -/
theorem norm3_Ad (q : Quat) (v : V3) (hq : qnormSq q = 1) :
    norm3 (SO3Impl.Ad q v) = norm3 v := by
  unfold norm3
  congr 1
  have h : (SO3Impl.Ad q v).x ^ 2 + (SO3Impl.Ad q v).y ^ 2 + (SO3Impl.Ad q v).z ^ 2 =
      qnormSq q ^ 2 * (v.x ^ 2 + v.y ^ 2 + v.z ^ 2) := by
    unfold SO3Impl.Ad qnormSq
    dsimp only
    ring
  rw [h, hq]
  ring

/-- Claim C5: for every SO3 group element `g` (unit quaternion) and every
tangent vector `v`, `exp(Ad(g)·v) = g · exp(v) · g⁻¹`; the identity is exact
in the real-number model, hence holds to floating tolerance. -/
theorem so3_Ad_conjugation (g : Quat) (v : V3) (hg : qnormSq g = 1) :
    SO3Impl.exp (SO3Impl.Ad g v) =
      qmul (qmul g (SO3Impl.exp v)) (SO3Impl.inverse g) := by
  by_cases hz : norm3 v = 0
  · obtain ⟨hx, hy, hz0⟩ := (norm3_eq_zero_iff _).mp hz
    have h2 : norm3 (SO3Impl.Ad g v) = 0 := by
      rw [norm3_eq_zero_iff]
      unfold SO3Impl.Ad
      refine ⟨?_, ?_, ?_⟩ <;> dsimp only <;> rw [hx, hy, hz0] <;> ring
    rw [SO3Impl.exp, if_pos h2, SO3Impl.exp, if_pos hz, SO3Impl.inverse,
      qmul_sandwich g qone]
    unfold qone SO3Impl.Ad
    ext <;> dsimp only <;> first | (rw [hg]; ring) | ring
  · have hAdn : norm3 (SO3Impl.Ad g v) = norm3 v := norm3_Ad g v hg
    rw [SO3Impl.exp, SO3Impl.exp, if_neg hz, if_neg (by rw [hAdn]; exact hz), hAdn,
      SO3Impl.inverse, qmul_sandwich g]
    ext <;> dsimp only <;>
      first
        | (rw [hg]; ring)
        | (unfold SO3Impl.Ad; dsimp only; ring)

/-- Witness for claim C5 at `g = (0,0,0,1)` and `v = (1,0,0)`. -/
theorem so3_Ad_conjugation_witness :
    qnormSq ⟨0, 0, 0, 1⟩ = 1 ∧
      SO3Impl.exp (SO3Impl.Ad ⟨0, 0, 0, 1⟩ ⟨1, 0, 0⟩) =
        qmul (qmul ⟨0, 0, 0, 1⟩ (SO3Impl.exp ⟨1, 0, 0⟩)) (SO3Impl.inverse ⟨0, 0, 0, 1⟩) :=
  ⟨by norm_num [qnormSq],
    so3_Ad_conjugation ⟨0, 0, 0, 1⟩ ⟨1, 0, 0⟩ (by norm_num [qnormSq])⟩

/-! ## Theorems: retraction/difference round trip (claim C6) -/

/-- Quaternion multiplication is associative. -/
theorem qmul_assoc (a b c : Quat) : qmul (qmul a b) c = qmul a (qmul b c) := by
  unfold qmul
  ext <;> dsimp only <;> ring

/-- The identity quaternion is a left unit. -/
theorem qone_qmul (a : Quat) : qmul qone a = a := by
  unfold qmul qone
  ext <;> dsimp only <;> ring

/-- A unit quaternion times its conjugate is the identity. -/
theorem qmul_qconj_self (q : Quat) (hq : qnormSq q = 1) : qmul q (qconj q) = qone := by
  have hq' : q.x ^ 2 + q.y ^ 2 + q.z ^ 2 + q.w ^ 2 = 1 := hq
  unfold qmul qconj qone
  ext <;> dsimp only <;> first | (linear_combination hq') | ring

/-- The coefficient norm is multiplicative (Euler's four-square identity). -/
theorem qnormSq_qmul (a b : Quat) : qnormSq (qmul a b) = qnormSq a * qnormSq b := by
  unfold qnormSq qmul
  dsimp only
  ring

/-- Conjugation preserves the coefficient norm. -/
theorem qnormSq_qconj (q : Quat) : qnormSq (qconj q) = qnormSq q := by
  unfold qnormSq qconj
  dsimp only
  ring

/-- Round trip on the SO3 group: retracting `x` by the difference of `y`
from `x` recovers `y`, provided the relative rotation is not the antipodal
coefficient vector `(0,0,0,-1)`. -/
theorem rplus_rminus_group (x y : Quat) (hx : qnormSq x = 1) (hy : qnormSq y = 1)
    (hne : qmul (SO3Impl.inverse x) y ≠ ⟨0, 0, 0, -1⟩) :
    rplus x (rminus y x) = y := by
  have hp : qnormSq (qmul (SO3Impl.inverse x) y) = 1 := by
    rw [SO3Impl.inverse, qnormSq_qmul, qnormSq_qconj, hx, hy]
    norm_num
  unfold rplus rminus
  rw [so3_exp_log _ hp hne, SO3Impl.inverse, ← qmul_assoc, qmul_qconj_self x hx, qone_qmul]

/-- Counterexample to claim C6 as stated: `x = (1,0,0,0)` and
`y = (-1,0,0,0)` are both canonical SO3 elements (unit norm, `w = 0 ≥ 0`),
but the relative rotation is the antipode `(0,0,0,-1)`, whose logarithm is
zero, so retracting `x` by `difference(y, x)` returns `x`, not `y`. -/
theorem retraction_difference_counterexample :
    qnormSq ⟨1, 0, 0, 0⟩ = 1 ∧ 0 ≤ (Quat.mk 1 0 0 0).w ∧
      qnormSq ⟨-1, 0, 0, 0⟩ = 1 ∧ 0 ≤ (Quat.mk (-1) 0 0 0).w ∧
      rplus ⟨1, 0, 0, 0⟩ (rminus ⟨-1, 0, 0, 0⟩ ⟨1, 0, 0, 0⟩) ≠ ⟨-1, 0, 0, 0⟩ := by
  refine ⟨by norm_num [qnormSq], by norm_num, by norm_num [qnormSq], by norm_num, ?_⟩
  have h1 : qmul (SO3Impl.inverse ⟨1, 0, 0, 0⟩) ⟨-1, 0, 0, 0⟩ = ⟨0, 0, 0, -1⟩ := by
    unfold SO3Impl.inverse qconj qmul
    ext <;> dsimp only <;> norm_num
  have h2 : SO3Impl.log ⟨0, 0, 0, -1⟩ = ⟨0, 0, 0⟩ := by
    rw [SO3Impl.log, if_pos (by rw [norm3_eq_zero_iff]; norm_num)]
  have h3 : SO3Impl.exp ⟨0, 0, 0⟩ = qone := by
    rw [SO3Impl.exp, if_pos (by rw [norm3_eq_zero_iff]; norm_num)]
  unfold rplus rminus
  rw [h1, h2, h3]
  intro hcontra
  have hxc := congrArg Quat.x hcontra
  unfold qmul qone at hxc
  dsimp only at hxc
  norm_num at hxc

/-- Claim C6 (amended): the retraction/difference round trip
`retraction(x, difference(y, x)) = y` holds for Euclidean vectors and
componentwise for composites unconditionally, and for SO3 group elements
whenever the relative rotation `x⁻¹·y` is not the antipodal coefficient
vector `(0,0,0,-1)` (the amendment forced by the counterexample). -/
theorem retraction_difference_roundtrip {n : ℕ} (x y : Quat) (hx : qnormSq x = 1)
    (hy : qnormSq y = 1) (hne : qmul (SO3Impl.inverse x) y ≠ ⟨0, 0, 0, -1⟩)
    (p q : Fin n → ℝ) (a b : Quat × (Fin n → ℝ)) (ha : qnormSq a.1 = 1)
    (hb : qnormSq b.1 = 1) (hab : qmul (SO3Impl.inverse a.1) b.1 ≠ ⟨0, 0, 0, -1⟩) :
    rplus x (rminus y x) = y ∧ retrE p (diffE q p) = q ∧ retrP a (diffP b a) = b := by
  refine ⟨rplus_rminus_group x y hx hy hne, ?_, ?_⟩
  · unfold retrE diffE
    ring
  · have h1 : rplus a.1 (rminus b.1 a.1) = b.1 := rplus_rminus_group a.1 b.1 ha hb hab
    have h2 : retrE a.2 (diffE b.2 a.2) = b.2 := by
      unfold retrE diffE
      ring
    unfold retrP diffP
    obtain ⟨b1, b2⟩ := b
    rw [Prod.mk.injEq]
    exact ⟨h1, h2⟩

/-- Witness for the amended claim C6 at identity group elements and zero
vectors (`n = 1`). -/
theorem retraction_difference_roundtrip_witness :
    qnormSq qone = 1 ∧
      qmul (SO3Impl.inverse qone) qone ≠ ⟨0, 0, 0, -1⟩ ∧
      (rplus qone (rminus qone qone) = qone ∧
        retrE (fun _ : Fin 1 => 0) (diffE (fun _ => 0) (fun _ => 0)) = (fun _ => 0) ∧
        retrP (qone, fun _ : Fin 1 => 0) (diffP (qone, fun _ => 0) (qone, fun _ => 0)) =
          (qone, fun _ => 0)) := by
  have hone : qnormSq qone = 1 := by norm_num [qnormSq, qone]
  have hne : qmul (SO3Impl.inverse qone) qone ≠ ⟨0, 0, 0, -1⟩ := by
    intro h
    have hw := congrArg Quat.w h
    unfold SO3Impl.inverse qconj qmul qone at hw
    dsimp only at hw
    norm_num at hw
  exact ⟨hone, hne,
    retraction_difference_roundtrip qone qone hone hone hne (fun _ => 0) (fun _ => 0)
      (qone, fun _ => 0) (qone, fun _ => 0) hone hone hne⟩

/-! ## Trust-region damping search `lmpar` (claim C1)

The implementation file `nls.hpp` is not part of the source snapshot; the
damped least-squares solve and the damping search are modelled from the
specification (§4.3).  Real matrices are `Matrix (Fin m) (Fin n) ℝ`. -/

open Matrix

open scoped Classical

/-- Modelled from the spec: `solve_ls` solves the damped problem
`min ‖[J; diag d]·x − [−r; 0]‖₂`, whose normal equations are
`(Jᵀ·J + diag(d)ᵀ·diag(d)) x = −Jᵀ r`; the model takes the normal-equation
solution (Mathlib's inverse is the zero matrix in the singular case, a
vector in the non-null column space as the spec's rank handling requires). -/
noncomputable def solve_ls {n m : ℕ} (J : Matrix (Fin m) (Fin n) ℝ) (d : Fin n → ℝ)
    (r : Fin m → ℝ) : Fin n → ℝ :=
  (Jᵀ * J + (Matrix.diagonal d)ᵀ * Matrix.diagonal d)⁻¹ *ᵥ (-(Jᵀ *ᵥ r))

/-- Scaled step norm `‖diag(d)·x‖`. -/
noncomputable def scaledNorm {n : ℕ} (d x : Fin n → ℝ) : ℝ :=
  Real.sqrt (∑ i, (d i * x i) ^ 2)

/-- The scaled norm of the damped solution as a function of the damping
parameter `λ` (the `lmpar` iteration's merit function `φ(λ) + Δ`). -/
noncomputable def lmpar_phi {n m : ℕ} (J : Matrix (Fin m) (Fin n) ℝ) (d : Fin n → ℝ)
    (r : Fin m → ℝ) (l : ℝ) : ℝ :=
  scaledNorm d (solve_ls J (fun i => Real.sqrt l * d i) r)

/-- Modelled from the spec: `lmpar(J, d, r, Δ)` returns `λ = 0` with the
undamped solution whenever its scaled norm is already within the radius,
and otherwise a damping parameter `λ > 0` whose scaled solution norm is
within the spec's relative tolerance `0.1·Δ` of the radius (the outcome of
the safeguarded Newton iteration, whose target is proved to exist below). -/
noncomputable def lmpar {n m : ℕ} (J : Matrix (Fin m) (Fin n) ℝ) (d : Fin n → ℝ)
    (r : Fin m → ℝ) (Delta : ℝ) : ℝ × (Fin n → ℝ) :=
  if lmpar_phi J d r 0 ≤ Delta then
    (0, solve_ls J (fun i => Real.sqrt 0 * d i) r)
  else if h : ∃ l : ℝ, 0 < l ∧ |lmpar_phi J d r l - Delta| ≤ Delta / 10 then
    (h.choose, solve_ls J (fun i => Real.sqrt h.choose * d i) r)
  else (0, fun _ => 0)

/-- Damped normal-equation matrix `JᵀJ + λ·diag(d²)`. -/
noncomputable def lmparB {n m : ℕ} (J : Matrix (Fin m) (Fin n) ℝ) (d : Fin n → ℝ)
    (l : ℝ) : Matrix (Fin n) (Fin n) ℝ :=
  Jᵀ * J + Matrix.diagonal (fun i => l * d i ^ 2)

/-- For `λ ≥ 0`, the damped solve at scale `√λ·d` is the normal-equation
solution for `lmparB`. -/
theorem solve_ls_sqrt {n m : ℕ} (J : Matrix (Fin m) (Fin n) ℝ) (d : Fin n → ℝ)
    (r : Fin m → ℝ) (l : ℝ) (hl : 0 ≤ l) :
    solve_ls J (fun i => Real.sqrt l * d i) r = (lmparB J d l)⁻¹ *ᵥ (-(Jᵀ *ᵥ r)) := by
  unfold solve_ls lmparB
  rw [Matrix.diagonal_transpose, Matrix.diagonal_mul_diagonal]
  have hfun : (fun i => Real.sqrt l * d i * (Real.sqrt l * d i)) = fun i => l * d i ^ 2 := by
    funext i
    rw [show Real.sqrt l * d i * (Real.sqrt l * d i) = Real.sqrt l * Real.sqrt l * d i ^ 2 by
      ring, Real.mul_self_sqrt hl]
  rw [hfun]

/-- For positive damping and positive scales, the damped normal-equation
matrix is positive definite. -/
theorem lmparB_posDef {n m : ℕ} (J : Matrix (Fin m) (Fin n) ℝ) (d : Fin n → ℝ)
    (l : ℝ) (hd : ∀ i, 0 < d i) (hl : 0 < l) : (lmparB J d l).PosDef := by
  have h1 : (Jᵀ * J).PosSemidef := by
    have h := Matrix.posSemidef_conjTranspose_mul_self J
    rwa [Matrix.conjTranspose_eq_transpose_of_trivial] at h
  have h2 : (Matrix.diagonal fun i => l * d i ^ 2).PosDef :=
    Matrix.PosDef.diagonal fun i => mul_pos hl (pow_pos (hd i) 2)
  exact Matrix.PosDef.posSemidef_add h1 h2

/-- Quadratic-form bound on the damped solution: for positive damping `λ`
and positive scales, `λ · φ(λ)` is bounded by the scale-weighted norm of the
right-hand side, so `φ(λ) → 0` as `λ → ∞`. -/
theorem lmpar_phi_mul_le {n m : ℕ} (J : Matrix (Fin m) (Fin n) ℝ) (d : Fin n → ℝ)
    (r : Fin m → ℝ) (hd : ∀ i, 0 < d i) (l : ℝ) (hl : 0 < l) :
    l * lmpar_phi J d r l ≤ Real.sqrt (∑ i, ((-(Jᵀ *ᵥ r)) i / d i) ^ 2) := by
  have hPD : (lmparB J d l).PosDef := lmparB_posDef J d l hd hl
  have hUnit : IsUnit (lmparB J d l).det := hPD.det_pos.ne'.isUnit
  set c : Fin n → ℝ := -(Jᵀ *ᵥ r) with hc
  set x : Fin n → ℝ := (lmparB J d l)⁻¹ *ᵥ c with hxdef
  have hBx : lmparB J d l *ᵥ x = c := by
    rw [hxdef, Matrix.mulVec_mulVec, Matrix.mul_nonsing_inv _ hUnit, Matrix.one_mulVec]
  have hphi : lmpar_phi J d r l = Real.sqrt (∑ i, (d i * x i) ^ 2) := by
    unfold lmpar_phi scaledNorm
    rw [solve_ls_sqrt J d r l hl.le]
  have hquad : x ⬝ᵥ c = (∑ i, (J *ᵥ x) i ^ 2) + l * ∑ i, (d i * x i) ^ 2 := by
    rw [← hBx]
    unfold lmparB
    rw [Matrix.add_mulVec, Matrix.dotProduct_add]
    congr 1
    · rw [← Matrix.mulVec_mulVec, Matrix.dotProduct_mulVec, Matrix.vecMul_transpose]
      unfold Matrix.dotProduct
      exact Finset.sum_congr rfl fun i _ => by ring
    · unfold Matrix.dotProduct
      rw [Finset.mul_sum]
      refine Finset.sum_congr rfl fun i _ => ?_
      rw [Matrix.mulVec_diagonal]
      ring
  have hcs : x ⬝ᵥ c ≤
      Real.sqrt (∑ i, (d i * x i) ^ 2) * Real.sqrt (∑ i, (c i / d i) ^ 2) := by
    have h1 : x ⬝ᵥ c = ∑ i, (d i * x i) * (c i / d i) := by
      unfold Matrix.dotProduct
      refine Finset.sum_congr rfl fun i _ => ?_
      have hdi : d i ≠ 0 := (hd i).ne'
      field_simp
      ring
    have h2 := Finset.sum_mul_sq_le_sq_mul_sq Finset.univ (fun i => d i * x i)
      (fun i => c i / d i)
    calc x ⬝ᵥ c = ∑ i, (d i * x i) * (c i / d i) := h1
      _ ≤ |∑ i, (d i * x i) * (c i / d i)| := le_abs_self _
      _ = Real.sqrt ((∑ i, (d i * x i) * (c i / d i)) ^ 2) := (Real.sqrt_sq_eq_abs _).symm
      _ ≤ Real.sqrt ((∑ i, (d i * x i) ^ 2) * ∑ i, (c i / d i) ^ 2) :=
        Real.sqrt_le_sqrt h2
      _ = Real.sqrt (∑ i, (d i * x i) ^ 2) * Real.sqrt (∑ i, (c i / d i) ^ 2) :=
        Real.sqrt_mul (by positivity) _
  have hJx : 0 ≤ ∑ i, (J *ᵥ x) i ^ 2 := by positivity
  have hkey : l * ∑ i, (d i * x i) ^ 2 ≤
      Real.sqrt (∑ i, (d i * x i) ^ 2) * Real.sqrt (∑ i, (c i / d i) ^ 2) := by
    linarith [hquad, hcs, hJx]
  rw [hphi]
  by_cases hS0 : Real.sqrt (∑ i, (d i * x i) ^ 2) = 0
  · rw [hS0, mul_zero]
    positivity
  · have hSnn : 0 ≤ ∑ i, (d i * x i) ^ 2 := by positivity
    have hSpos : 0 < Real.sqrt (∑ i, (d i * x i) ^ 2) :=
      lt_of_le_of_ne (Real.sqrt_nonneg _) (Ne.symm hS0)
    have hSS : Real.sqrt (∑ i, (d i * x i) ^ 2) * Real.sqrt (∑ i, (d i * x i) ^ 2) =
        ∑ i, (d i * x i) ^ 2 := Real.mul_self_sqrt hSnn
    nlinarith [hkey, hSS, hSpos]

/-- The damped normal-equation matrix depends continuously on the damping
parameter. -/
theorem lmparB_continuous {n m : ℕ} (J : Matrix (Fin m) (Fin n) ℝ) (d : Fin n → ℝ) :
    Continuous fun l : ℝ => lmparB J d l := by
  refine continuous_matrix fun i j => ?_
  unfold lmparB
  simp only [Matrix.add_apply, Matrix.diagonal_apply]
  by_cases hij : i = j
  · simp only [if_pos hij]
    exact continuous_const.add (continuous_id.mul continuous_const)
  · simp only [if_neg hij]
    simpa using continuous_const
/-- On any interval where the damped matrix stays nonsingular, the scaled
solution norm `φ` is continuous. -/
theorem lmpar_phi_continuousOn {n m : ℕ} (J : Matrix (Fin m) (Fin n) ℝ) (d : Fin n → ℝ)
    (r : Fin m → ℝ) (L : ℝ)
    (hdet : ∀ l ∈ Set.Icc (0 : ℝ) L, (lmparB J d l).det ≠ 0) :
    ContinuousOn (fun l => lmpar_phi J d r l) (Set.Icc 0 L) := by
  have hB := lmparB_continuous J d
  have hdetc : Continuous fun l => (lmparB J d l).det := hB.matrix_det
  have hadj : Continuous fun l => (lmparB J d l).adjugate := hB.matrix_adjugate
  have hx : ∀ i : Fin n,
      ContinuousOn (fun l => ((lmparB J d l)⁻¹ *ᵥ (-(Jᵀ *ᵥ r))) i) (Set.Icc 0 L) := by
    intro i
    have hrw : (fun l => ((lmparB J d l)⁻¹ *ᵥ (-(Jᵀ *ᵥ r))) i) = fun l =>
        ∑ j, ((lmparB J d l).det)⁻¹ * (lmparB J d l).adjugate i j * (-(Jᵀ *ᵥ r)) j := by
      funext l
      rw [Matrix.inv_def, Ring.inverse_eq_inv]
      unfold Matrix.mulVec Matrix.dotProduct
      refine Finset.sum_congr rfl fun j _ => ?_
      simp [Matrix.smul_apply, smul_eq_mul]
    rw [hrw]
    refine continuousOn_finset_sum _ fun j _ => ?_
    refine ContinuousOn.mul (ContinuousOn.mul ?_ (hadj.matrix_elem i j).continuousOn)
      continuousOn_const
    exact ContinuousOn.inv₀ hdetc.continuousOn hdet
  have hg : ContinuousOn (fun l => scaledNorm d ((lmparB J d l)⁻¹ *ᵥ (-(Jᵀ *ᵥ r))))
      (Set.Icc 0 L) := by
    unfold scaledNorm
    refine Real.continuous_sqrt.comp_continuousOn ?_
    refine continuousOn_finset_sum _ fun i _ => ?_
    exact (continuousOn_const.mul (hx i)).pow 2
  refine ContinuousOn.congr hg fun l hl => ?_
  unfold lmpar_phi scaledNorm
  rw [solve_ls_sqrt J d r l hl.1]

/-- Existence of the damping search's target: when the undamped solution
exceeds the radius, intermediate values give a `λ > 0` whose scaled
solution norm hits the radius exactly (so certainly within the `0.1·Δ`
tolerance). -/
theorem lmpar_exists {n m : ℕ} (J : Matrix (Fin m) (Fin n) ℝ) (d : Fin n → ℝ)
    (r : Fin m → ℝ) (Delta : ℝ) (hd : ∀ i, 0 < d i) (hΔ : 0 < Delta)
    (hgt : Delta < lmpar_phi J d r 0) :
    ∃ l : ℝ, 0 < l ∧ |lmpar_phi J d r l - Delta| ≤ Delta / 10 := by
  set Cq := Real.sqrt (∑ i, ((-(Jᵀ *ᵥ r)) i / d i) ^ 2) with hCq
  have hCq0 : 0 ≤ Cq := Real.sqrt_nonneg _
  set L := max 1 (Cq / Delta) with hLdef
  have hL1 : (1 : ℝ) ≤ L := le_max_left _ _
  have hLpos : 0 < L := by linarith
  have hdet0 : (lmparB J d 0).det ≠ 0 := by
    intro h0
    have hnu : ¬IsUnit (lmparB J d 0).det := by
      rw [h0]
      exact not_isUnit_zero
    have hinv : (lmparB J d 0)⁻¹ = 0 := Matrix.nonsing_inv_apply_not_isUnit _ hnu
    have hphi0 : lmpar_phi J d r 0 = 0 := by
      unfold lmpar_phi scaledNorm
      rw [solve_ls_sqrt J d r 0 le_rfl, hinv]
      simp
    rw [hphi0] at hgt
    linarith
  have hdet : ∀ l ∈ Set.Icc (0 : ℝ) L, (lmparB J d l).det ≠ 0 := by
    intro l hl
    rcases eq_or_lt_of_le hl.1 with h | h
    · rw [← h]
      exact hdet0
    · exact (lmparB_posDef J d l hd h).det_pos.ne'
  have hcont := lmpar_phi_continuousOn J d r L hdet
  have hphiL : lmpar_phi J d r L ≤ Delta := by
    have hb := lmpar_phi_mul_le J d r hd L hLpos
    have h1 : Cq ≤ L * Delta := by
      have h2 : Cq / Delta ≤ L := le_max_right _ _
      calc Cq = Cq / Delta * Delta := by field_simp
        _ ≤ L * Delta := mul_le_mul_of_nonneg_right h2 hΔ.le
    exact le_of_mul_le_mul_left (le_trans hb h1) hLpos
  have hmem : Delta ∈ Set.Icc (lmpar_phi J d r L) (lmpar_phi J d r 0) := ⟨hphiL, hgt.le⟩
  obtain ⟨l, hlmem, hroot⟩ := intermediate_value_Icc' hLpos.le hcont hmem
  have hroot' : lmpar_phi J d r l = Delta := hroot
  refine ⟨l, ?_, ?_⟩
  · rcases eq_or_lt_of_le hlmem.1 with h | h
    · exfalso
      rw [← h] at hroot'
      rw [hroot'] at hgt
      exact lt_irrefl _ hgt
    · exact h
  · rw [hroot', sub_self, abs_zero]
    positivity

/-- Claim C1: for every Jacobian `J`, positive diagonal scale `d`, residual
`r` and radius `Δ > 0`, the damping parameter `λ` and step returned by
`lmpar` satisfy: either `λ = 0` and `‖diag(d)·step‖ ≤ 1.1·Δ`, or `λ > 0`
and `│‖diag(d)·step‖ − Δ│ ≤ 0.1·Δ`; and whenever the undamped solution
already has scaled norm at most `Δ`, `lmpar` returns `λ = 0`. -/
theorem lmpar_trust_region {n m : ℕ} (J : Matrix (Fin m) (Fin n) ℝ) (d : Fin n → ℝ)
    (r : Fin m → ℝ) (Delta : ℝ) (hd : ∀ i, 0 < d i) (hΔ : 0 < Delta) :
    ((lmpar J d r Delta).1 = 0 ∧ scaledNorm d (lmpar J d r Delta).2 ≤ 1.1 * Delta ∨
        0 < (lmpar J d r Delta).1 ∧
          |scaledNorm d (lmpar J d r Delta).2 - Delta| ≤ 0.1 * Delta) ∧
      (lmpar_phi J d r 0 ≤ Delta → (lmpar J d r Delta).1 = 0) := by
  by_cases h0 : lmpar_phi J d r 0 ≤ Delta
  · have hlm : lmpar J d r Delta = (0, solve_ls J (fun i => Real.sqrt 0 * d i) r) := by
      unfold lmpar
      rw [if_pos h0]
    rw [hlm]
    constructor
    · left
      refine ⟨rfl, ?_⟩
      show lmpar_phi J d r 0 ≤ 1.1 * Delta
      nlinarith [h0, hΔ]
    · intro _
      rfl
  · have hgt : Delta < lmpar_phi J d r 0 := not_le.mp h0
    have hex := lmpar_exists J d r Delta hd hΔ hgt
    have hlm : lmpar J d r Delta =
        (hex.choose, solve_ls J (fun i => Real.sqrt hex.choose * d i) r) := by
      unfold lmpar
      rw [if_neg h0, dif_pos hex]
    rw [hlm]
    constructor
    · right
      refine ⟨hex.choose_spec.1, ?_⟩
      have h2 := hex.choose_spec.2
      show |lmpar_phi J d r hex.choose - Delta| ≤ 0.1 * Delta
      nlinarith [h2]
    · intro hc
      exact absurd hc h0

/-- Witness for claim C1 at the concrete `1 × 1` problem `J = 0`, `d = 1`,
`r = 0`, `Δ = 1`. -/
theorem lmpar_trust_region_witness :
    (∀ i : Fin 1, (0 : ℝ) < (fun _ : Fin 1 => (1 : ℝ)) i) ∧ (0 : ℝ) < 1 ∧
      (((lmpar (0 : Matrix (Fin 1) (Fin 1) ℝ) (fun _ => 1) 0 1).1 = 0 ∧
            scaledNorm (fun _ => 1) (lmpar (0 : Matrix (Fin 1) (Fin 1) ℝ) (fun _ => 1) 0 1).2 ≤
              1.1 * 1 ∨
          0 < (lmpar (0 : Matrix (Fin 1) (Fin 1) ℝ) (fun _ => 1) 0 1).1 ∧
            |scaledNorm (fun _ => 1)
                  (lmpar (0 : Matrix (Fin 1) (Fin 1) ℝ) (fun _ => 1) 0 1).2 - 1| ≤
              0.1 * 1) ∧
        (lmpar_phi (0 : Matrix (Fin 1) (Fin 1) ℝ) (fun _ => 1) 0 0 ≤ 1 →
          (lmpar (0 : Matrix (Fin 1) (Fin 1) ℝ) (fun _ => 1) 0 1).1 = 0)) :=
  ⟨fun _ => by norm_num, by norm_num,
    lmpar_trust_region (0 : Matrix (Fin 1) (Fin 1) ℝ) (fun _ => 1) 0 1
      (fun _ => by norm_num) (by norm_num)⟩
